import Mathlib

/-!
Verification development for the Chebyshev/Krylov heat-diffusion approximation
code (`main.py`): the Chebyshev polynomial engine, the Bessel coefficient
engine, the closed-form error-bound models, the order-selection search
`reverse_bound`, and the Arnoldi/ART approximator `art_expm`.

Numbers are modelled as real numbers; signals as dense `Matrix (Fin n) (Fin d) ℝ`;
the sparse operator as `Matrix (Fin n) (Fin n) ℝ`.  Loops whose termination the
source does not guarantee (the doubling search of `reverse_bound`, the outer
restart loop and the inner time-step search of `art_expm`) take an explicit
fuel argument and return `none` when the fuel runs out, so that `none` for all
fuels models non-termination.
-/

namespace Cheby

/-- Series definition of the modified Bessel function of the first kind
`I_k(x) = Σ_m (x/2)^(2m+k) / (m! (m+k)!)` for integer order `k`. -/
noncomputable def Ibessel (k : ℕ) (x : ℝ) : ℝ :=
  tsum fun m : ℕ => (x / 2) ^ (2 * m + k) / ((Nat.factorial m : ℝ) * (Nat.factorial (m + k) : ℝ))

/-- Models `scipy.special.ive(k, x)` for integer order: the exponentially scaled
modified Bessel function of the first kind, `ive(k, x) = exp(-|x|) * I_k(x)`. -/
noncomputable def ive (k : ℕ) (x : ℝ) : ℝ :=
  Real.exp (-|x|) * Ibessel k x

/-- Models `eigsh(L, k=1, return_eigenvectors=False)[0]`: the dominant
eigenvalue of the symmetric operator `L` (for the PSD Laplacians the code
feeds it, the largest-magnitude eigenvalue is the largest eigenvalue). -/
noncomputable def eigsh_lm {n : ℕ} (L : Matrix (Fin n) (Fin n) ℝ) : ℝ :=
  sSup {t : ℝ | ∃ v : Fin n → ℝ, v ≠ 0 ∧ L.mulVec v = t • v}

/-- The three-term Chebyshev recurrence of `compute_chebychev_pol`:
`T_0 = X`, `T_1 = (1/phi) L X - X`, `T_j = (2/phi) L T_{j-1} - 2 T_{j-1} - T_{j-2}`. -/
noncomputable def chebT {n d : ℕ} (L : Matrix (Fin n) (Fin n) ℝ)
    (X : Matrix (Fin n) (Fin d) ℝ) (phi : ℝ) : ℕ → Matrix (Fin n) (Fin d) ℝ
  | 0 => X
  | 1 => (1 / phi) • (L * X) - X
  | (j + 2) => (2 / phi) • (L * chebT L X phi (j + 1)) - (2 : ℝ) • chebT L X phi (j + 1)
      - chebT L X phi j

/-- Models `compute_chebychev_pol(X, L, phi, K)`: the array `T` of the `K+1`
matrices `T_0 … T_K`, filled by `T[0] = X`, `T[1] = (1/phi) L @ X - T[0]` and
the loop `T[j] = (2/phi) L @ T[j-1] - 2 T[j-1] - T[j-2]` for `j = 2..K`.
Faithful for `K >= 1` (every call site): at `K = 0` the source writes `T[1]`
into a one-element array and raises `IndexError`, a path this total
definition does not reproduce. -/
noncomputable def compute_chebychev_pol {n d : ℕ} (X : Matrix (Fin n) (Fin d) ℝ)
    (L : Matrix (Fin n) (Fin n) ℝ) (phi : ℝ) (K : ℕ) : List (Matrix (Fin n) (Fin d) ℝ) :=
  List.ofFn fun j : Fin (K + 1) => chebT L X phi j

/-- Models `compute_chebychev_coeff_all(phi, tau, K) = 2*ive(arange(0, K+1), -tau*phi)`:
the array of the `K+1` Chebyshev coefficients. -/
noncomputable def compute_chebychev_coeff_all (phi tau : ℝ) (K : ℕ) : List ℝ :=
  List.ofFn fun k : Fin (K + 1) => 2 * ive k (-tau * phi)

/-- Models the scalar-`tau`, explicit-`K` path of `expm_multiply(L, X, tau, K)`:
`phi = eigsh(L, k=1)[0] / 2`, `poly = compute_chebychev_pol(X, L, phi, K)`,
`coeff = compute_chebychev_coeff_all(phi, tau, K)`, and
`Y = .5 * coeff[0] * poly[0] + sum_{k=1}^{K} coeff[k] * poly[k]`
(the code writes the sum as `(poly[1:].T @ coeff[1:]).T`). -/
noncomputable def expm_multiply {n d : ℕ} (L : Matrix (Fin n) (Fin n) ℝ)
    (X : Matrix (Fin n) (Fin d) ℝ) (tau : ℝ) (K : ℕ) : Matrix (Fin n) (Fin d) ℝ :=
  let phi := eigsh_lm L / 2
  let poly := compute_chebychev_pol X L phi K
  let coeff := compute_chebychev_coeff_all phi tau K
  (0.5 * coeff.getD 0 0) • poly.getD 0 0 +
    ∑ k in Finset.Icc 1 K, (coeff.getD k 0) • poly.getD k 0

/-- Error raised by `get_diffusion_fun` when called with `K=None`: the fallback
assignment `K = K_base` reads the name `K_base`, which is defined nowhere in
the program, so Python raises `NameError` before any computation. -/
inductive DiffusionErr where
  | unboundKBase : DiffusionErr
deriving DecidableEq

/-- Models `get_diffusion_fun(L, X, K)`.  With `K=None` the fallback
`K = K_base` fails with an unbound-name error (`K_base` is never defined in
the source), modelled as `Except.error`.  With an explicit `K` it computes
`phi` and the polynomial basis once and returns the closure
`f(tau) = .5 * coeff[0] * poly[0] + sum_{k=1}^{K} coeff[k] * poly[k]`. -/
noncomputable def get_diffusion_fun {n d : ℕ} (L : Matrix (Fin n) (Fin n) ℝ)
    (X : Matrix (Fin n) (Fin d) ℝ) (K : Option ℕ) :
    Except DiffusionErr (ℝ → Matrix (Fin n) (Fin d) ℝ) :=
  match K with
  | none => Except.error DiffusionErr.unboundKBase
  | some K =>
    let phi := eigsh_lm L / 2
    let poly := compute_chebychev_pol X L phi K
    Except.ok fun tau =>
      let coeff := compute_chebychev_coeff_all phi tau K
      (0.5 * coeff.getD 0 0) • poly.getD 0 0 +
        ∑ k in Finset.Icc 1 K, (coeff.getD k 0) • poly.getD k 0

/-- Models `g(K, C) = 2 * exp(C^2/(K+2) - 2C) * C^(K+1) / (factorial(K) * (K+1-C))`,
the core factor of the paper's error bounds. -/
noncomputable def g (K : ℕ) (C : ℝ) : ℝ :=
  2 * Real.exp (C ^ 2 / ((K : ℝ) + 2) - 2 * C) * C ^ (K + 1) /
    ((Nat.factorial K : ℝ) * ((K : ℝ) + 1 - C))

/-- The constant `b = 2 / (1 + sqrt(5))` of the Bergamaschi bound `E`. -/
noncomputable def bconst : ℝ := 2 / (1 + Real.sqrt 5)

/-- The constant `d = exp(b) / (2 + sqrt(5))` of the Bergamaschi bound `E`. -/
noncomputable def dconst : ℝ := Real.exp bconst / (2 + Real.sqrt 5)

/-- Models `E(K, C)` of the Bergamaschi bound family:
`E = exp(-b (K+1)^2 / (4C)) (1 + sqrt(C pi / b)) + d^(4C)/(1-d)` when `K <= 4C`,
else `d^K/(1-d)`, with `b`, `d` as in `bconst`, `dconst`. -/
noncomputable def E (K : ℕ) (C : ℝ) : ℝ :=
  if (K : ℝ) ≤ 4 * C then
    Real.exp (-bconst * ((K : ℝ) + 1) ^ 2 / (4 * C)) * (1 + Real.sqrt (C * Real.pi / bconst)) +
      dconst ^ ((4 : ℝ) * C) / (1 - dconst)
  else
    dconst ^ K / (1 - dconst)

/-- Frobenius norm of a dense matrix, models `np.linalg.norm(x)`. -/
noncomputable def frob {n d : ℕ} (x : Matrix (Fin n) (Fin d) ℝ) : ℝ :=
  Real.sqrt (∑ i, ∑ j, (x i j) ^ 2)

/-- Sum of all entries of a dense matrix, models `np.sum(x)`. -/
def entsum {n d : ℕ} (x : Matrix (Fin n) (Fin d) ℝ) : ℝ :=
  ∑ i, ∑ j, x i j

/-- Models `get_bound_eps_generic(phi, x, tau, K) = g(K, tau*phi/2)**2`. -/
noncomputable def get_bound_eps_generic {n d : ℕ} (phi : ℝ) (x : Matrix (Fin n) (Fin d) ℝ)
    (tau : ℝ) (K : ℕ) : ℝ :=
  let C := tau * phi / 2
  let _ := x
  g K C ^ 2

/-- Models `get_bound_eta_generic(phi, x, tau, K)`: asserts `K > C - 1`
(`none` models the `AssertionError`), then returns `g(K,C)**2 * exp(8C)`. -/
noncomputable def get_bound_eta_generic {n d : ℕ} (phi : ℝ) (x : Matrix (Fin n) (Fin d) ℝ)
    (tau : ℝ) (K : ℕ) : Option ℝ :=
  let C := tau * phi / 2
  let _ := x
  if (K : ℝ) > C - 1 then some (g K C ^ 2 * Real.exp (8 * C)) else none

/-- Models `get_bound_eta_specific(phi, x, tau, K)`: `a1 = sum(x)`, asserts
`a1 != 0` (`none` models the `AssertionError`), then returns
`g(K,C)**2 * n * norm(x)**2 / a1**2` where `n = len(x)` is the row count. -/
noncomputable def get_bound_eta_specific {n d : ℕ} (phi : ℝ) (x : Matrix (Fin n) (Fin d) ℝ)
    (tau : ℝ) (K : ℕ) : Option ℝ :=
  let C := tau * phi / 2
  let a1 := entsum x
  if a1 ≠ 0 then some (g K C ^ 2 * (n : ℝ) * frob x ^ 2 / a1 ^ 2) else none

/-- Models `get_bound_bergamaschi_generic(phi, x, tau, K) = (2 E(K,C) exp(4C))**2`. -/
noncomputable def get_bound_bergamaschi_generic {n d : ℕ} (phi : ℝ)
    (x : Matrix (Fin n) (Fin d) ℝ) (tau : ℝ) (K : ℕ) : ℝ :=
  let C := tau * phi / 2
  let _ := x
  (2 * E K C * Real.exp (4 * C)) ^ 2

/-- Models `get_bound_bergamaschi_specific(phi, x, tau, K)`: asserts
`a1 = sum(x) != 0`, then returns `4 E(K,C)**2 * n * norm(x)**2 / a1**2`. -/
noncomputable def get_bound_bergamaschi_specific {n d : ℕ} (phi : ℝ)
    (x : Matrix (Fin n) (Fin d) ℝ) (tau : ℝ) (K : ℕ) : Option ℝ :=
  let C := tau * phi / 2
  let a1 := entsum x
  if a1 ≠ 0 then some (4 * E K C ^ 2 * (n : ℝ) * frob x ^ 2 / a1 ^ 2) else none

/-- The exponential-search loop of `reverse_bound` (step 1):
`while f(phi,x,tau,K_max) > err: K_min = K_max; K_max = 2*K_min`.
The source has no iteration cap, so the loop is fuelled; `none` for every
fuel models non-termination. -/
noncomputable def rb_double {α : Type} (f : ℝ → α → ℝ → ℕ → ℝ) (phi : ℝ) (x : α)
    (tau err : ℝ) : ℕ → ℕ → ℕ → Option (ℕ × ℕ)
  | 0, _, _ => none
  | fuel + 1, kmin, kmax =>
    if f phi x tau kmax ≤ err then some (kmin, kmax)
    else rb_double f phi x tau err fuel kmax (2 * kmax)

/-- The bisection loop of `reverse_bound` (step 2):
`while K_max > 1 + K_min: K_int = (K_max + K_min) // 2; ...`. -/
noncomputable def rb_bisect {α : Type} (f : ℝ → α → ℝ → ℕ → ℝ) (phi : ℝ) (x : α)
    (tau err : ℝ) (kmin kmax : ℕ) : ℕ :=
  if h : kmax > 1 + kmin then
    let kint := (kmax + kmin) / 2
    if f phi x tau kint ≤ err then rb_bisect f phi x tau err kmin kint
    else rb_bisect f phi x tau err kint kmax
  else kmax
termination_by kmax - kmin
decreasing_by
  · have h1 : kmin + 2 ≤ kmax := by omega
    have h2 : kmin + 1 ≤ (kmax + kmin) / 2 := by omega
    have h3 : (kmax + kmin) / 2 + 1 ≤ kmax := by omega
    omega
  · have h1 : kmin + 2 ≤ kmax := by omega
    have h2 : kmin + 1 ≤ (kmax + kmin) / 2 := by omega
    omega

/-- Models `reverse_bound(f, phi, x, tau, err)`: starts at
`K_min = max(1, int(tau*phi/2))`; returns it immediately if
`f(K_min) <= err`; otherwise doubles `K_max` until `f(K_max) <= err`
(fuelled, see `rb_double`), then bisects and returns `K_max`. -/
noncomputable def reverse_bound {α : Type} (f : ℝ → α → ℝ → ℕ → ℝ) (phi : ℝ) (x : α)
    (tau err : ℝ) (fuel : ℕ) : Option ℕ :=
  let C := tau * phi / 2
  let kmin := max 1 (Int.toNat ⌊C⌋)
  if f phi x tau kmin ≤ err then some kmin
  else (rb_double f phi x tau err fuel kmin (2 * kmin)).map fun p =>
    rb_bisect f phi x tau err p.1 p.2

/-- Non-termination of `reverse_bound` at given arguments: no amount of fuel
makes the search return. -/
noncomputable def reverse_bound_diverges {α : Type} (f : ℝ → α → ℝ → ℕ → ℝ) (phi : ℝ)
    (x : α) (tau err : ℝ) : Prop :=
  ∀ fuel, reverse_bound f phi x tau err fuel = none

/-- Euclidean norm of a vector, models `np.linalg.norm(v)`. -/
noncomputable def vnorm {nn : ℕ} (v : Fin nn → ℝ) : ℝ :=
  Real.sqrt (∑ i, (v i) ^ 2)

/-- First standard basis vector `e1` of length `k`. -/
def e1vec (k : ℕ) : Fin k → ℝ :=
  fun i => if (i : ℕ) = 0 then 1 else 0

/-- Matrix exponential by its power series, models `scipy.linalg.expm`. -/
noncomputable def mexp {k : ℕ} (M : Matrix (Fin k) (Fin k) ℝ) : Matrix (Fin k) (Fin k) ℝ :=
  tsum fun i : ℕ => ((Nat.factorial i : ℝ))⁻¹ • M ^ i

/-- Pointwise update of a two-index table. -/
def upd2 (M : ℕ → ℕ → ℝ) (a b : ℕ) (c : ℝ) : ℕ → ℕ → ℝ :=
  fun p q => if p = a ∧ q = b then c else M p q

/-- The modified Gram-Schmidt inner loop of `art_expm`
(`w = A @ V[:,j]; for i in range(j): H[i,j] = w.T @ V[:,i]; w = w - H[i,j]*V[:,i]`).
Note the source iterates `i` over `range(j)`, i.e. only `i = 0..j-1`:
`w` is never orthogonalized against `V[:,j]` itself. -/
def mgs {nn : ℕ} (A : Matrix (Fin nn) (Fin nn) ℝ) (V : ℕ → Fin nn → ℝ)
    (H : ℕ → ℕ → ℝ) (j : ℕ) : (Fin nn → ℝ) × (ℕ → ℕ → ℝ) :=
  (List.range j).foldl
    (fun wh i =>
      let hij := Matrix.dotProduct wh.1 (V i)
      (wh.1 - hij • V i, upd2 wh.2 i j hij))
    (A.mulVec (V j), H)

/-- The `(j+1) x (j+1)` leading submatrix `H[0:j+1, 0:j+1]`. -/
def hsub (H : ℕ → ℕ → ℝ) (j : ℕ) : Matrix (Fin (j + 1)) (Fin (j + 1)) ℝ :=
  Matrix.of fun a b : Fin (j + 1) => H a b

/-- Linear combination `V[:, 0:k] @ c`, used for `y = V[:,0:j+1] @ (beta*u)`. -/
def combo {nn : ℕ} (V : ℕ → Fin nn → ℝ) (k : ℕ) (c : Fin k → ℝ) : Fin nn → ℝ :=
  fun r => ∑ i, c i * V i r

/-- The residual-norm estimate of `art_expm` at Krylov step `j`:
`s = [t*q/6 for q in range(6)]`, `u_q = expm(-s[q] * H[0:j+1,0:j+1]) @ e1`,
`beta_j[q] = -H[j+1,j] * (ej.T @ u_q)`, `resnorm = norm(beta_j, inf)`.
Returns `resnorm` together with the `u` left in scope after the loop
(`q = 5`), which the source uses for the output when it declares convergence. -/
noncomputable def art_resnorm (t : ℝ) (H : ℕ → ℕ → ℝ) (j : ℕ) :
    ℝ × (Fin (j + 1) → ℝ) :=
  let u : Fin 6 → Fin (j + 1) → ℝ := fun q =>
    (mexp (-(t * (q : ℝ) / 6) • hsub H j)).mulVec (e1vec (j + 1))
  let betaj : Fin 6 → ℝ := fun q => -H (j + 1) j * u q ⟨j, Nat.lt_succ_self j⟩
  (Finset.univ.sup' ⟨0, Finset.mem_univ 0⟩ fun q => |betaj q|, u 5)

/-- The restart search of `art_expm` for the number of time sub-steps:
`n_tsteps = 100; u = e1; resid_value = 2*toler;`
`while resid_value > toler: expmH = expm(-(t/n_tsteps) * Hsub); u = expmH @ e1;`
`resid_value = -H[j+1,j]*(ej.T @ u); if abs(resid_value) <= toler: u = e1; break;`
`n_tsteps = 2*n_tsteps`.  Fuelled: the source loop has no iteration cap. -/
noncomputable def restart_find (j : ℕ) (t toler hjj : ℝ)
    (Hs : Matrix (Fin (j + 1)) (Fin (j + 1)) ℝ) :
    ℕ → ℕ → (Fin (j + 1) → ℝ) → Matrix (Fin (j + 1)) (Fin (j + 1)) ℝ → ℝ →
      Option (ℕ × (Fin (j + 1) → ℝ) × Matrix (Fin (j + 1)) (Fin (j + 1)) ℝ)
  | 0, _, _, _, _ => none
  | fuel + 1, nts, u, eH, resid =>
    if resid > toler then
      let eH2 := mexp (-(t / (nts : ℝ)) • Hs)
      let u2 := eH2.mulVec (e1vec (j + 1))
      let r2 := -hjj * u2 ⟨j, Nat.lt_succ_self j⟩
      if |r2| ≤ toler then some (nts, e1vec (j + 1), eH2)
      else restart_find j t toler hjj Hs fuel (2 * nts) u2 eH2 r2
    else some (nts, u, eH)

/-- The restart residual scan of `art_expm`:
`for k in range(n_tsteps): u_old = u; u = expmH @ u;`
`resid_value = -H[j+1,j]*(ej.T @ u);`
`if abs(resid_value) > toler: u_ok = u_old; t_ok = (k-1)/n_tsteps * t;`
`y_ok = V[:,0:j+1] @ (beta*u_ok); t = t - t_ok; v = y_ok; break`.
Returns `some (t_new, v_new)` if the break fires, `none` if the loop runs
out (in which case the source restarts with `t`, `v` unchanged).  The trailing
arguments are the remaining iteration count `cnt` (initially `n_tsteps`),
the loop index `k` and the current `u`. -/
noncomputable def restart_scan {nn : ℕ} (j : ℕ) (t toler hjj : ℝ)
    (eH : Matrix (Fin (j + 1)) (Fin (j + 1)) ℝ) (nts : ℕ) (V : ℕ → Fin nn → ℝ)
    (beta : ℝ) : ℕ → ℕ → (Fin (j + 1) → ℝ) → Option (ℝ × (Fin nn → ℝ))
  | 0, _, _ => none
  | cnt + 1, kidx, u =>
    let u2 := eH.mulVec u
    let r := -hjj * u2 ⟨j, Nat.lt_succ_self j⟩
    if |r| > toler then
      let t_ok := ((kidx : ℝ) - 1) / (nts : ℝ) * t
      let y_ok := combo V (j + 1) (beta • u)
      some (t - t_ok, y_ok)
    else restart_scan j t toler hjj eH nts V beta cnt (kidx + 1) u2

/-- Outcome of one pass of the Krylov building loop (`for j in range(m)`). -/
inductive ArtOut (nn : ℕ) where
  | done (y : Fin nn → ℝ) : ArtOut nn
  | restart (t : ℝ) (v : Fin nn → ℝ) : ArtOut nn
  | stuck : ArtOut nn

/-- One pass of the `for j in range(m)` loop of `art_expm`, from index `j` with
`steps = m - j` iterations left.  At each step: extend the basis by modified
Gram-Schmidt (`mgs`), set `H[j+1,j] = norm(w)`, estimate the residual
(`art_resnorm`); on `resnorm <= toler` produce `y = V[:,0:j+1] @ (beta*u)`;
when `j+1 == m` run the restart search and scan; otherwise set
`V[:,j+1] = w / H[j+1,j]` and continue.  `stuck` models the fuel of the
restart search running out (or `m = 0`, where the source would reference
an unassigned loop variable). -/
noncomputable def art_inner {nn : ℕ} (A : Matrix (Fin nn) (Fin nn) ℝ)
    (t toler : ℝ) (m : ℕ) (beta : ℝ) (v : Fin nn → ℝ) (wf : ℕ) :
    ℕ → ℕ → (ℕ → Fin nn → ℝ) → (ℕ → ℕ → ℝ) → ArtOut nn
  | 0, _, _, _ => ArtOut.stuck
  | steps + 1, j, V, H =>
    let wH := mgs A V H j
    let w := wH.1
    let H1 := upd2 wH.2 (j + 1) j (vnorm w)
    let ru := art_resnorm t H1 j
    if ru.1 ≤ toler then ArtOut.done (combo V (j + 1) (beta • ru.2))
    else if j + 1 = m then
      (restart_find j t toler (H1 (j + 1) j) (hsub H1 j) wf 100 (e1vec (j + 1)) 1
          (2 * toler)).elim ArtOut.stuck fun p =>
        (restart_scan j t toler (H1 (j + 1) j) p.2.2 p.1 V beta p.1 0 p.2.1).elim
          (ArtOut.restart t v) fun q => ArtOut.restart q.1 q.2
    else
      art_inner A t toler m beta v wf steps (j + 1)
        (Function.update V (j + 1) (fun i => w i / H1 (j + 1) j)) H1

/-- The outer `while not convergence` loop of `art_expm`: each pass normalizes
`v` into `V[:,0]` and runs the building loop; a restart re-enters with the
reduced time and the accepted partial result.  Fuelled: the source restarts
an unbounded number of times. -/
noncomputable def art_loop {nn : ℕ} (A : Matrix (Fin nn) (Fin nn) ℝ)
    (toler : ℝ) (m wf : ℕ) : ℕ → ℝ → (Fin nn → ℝ) → Option (Fin nn → ℝ)
  | 0, _, _ => none
  | fuel + 1, t, v =>
    let beta := vnorm v
    let V0 : ℕ → Fin nn → ℝ :=
      Function.update (fun _ => fun _ => 0) 0 (fun i => v i / beta)
    match art_inner A t toler m beta v wf m 0 V0 (fun _ _ => 0) with
    | ArtOut.done y => some y
    | ArtOut.restart t2 v2 => art_loop A toler m wf fuel t2 v2
    | ArtOut.stuck => none

/-- Models `art_expm(A, v, t, toler, m)`: computes `y = exp(-t*A) @ v` by the
Arnoldi method with residual-time restarting.  `fuel` bounds the number of
outer restarts and `wf` the doubling search inside a restart; the source
bounds neither, so `none` for all fuels models non-termination. -/
noncomputable def art_expm {nn : ℕ} (A : Matrix (Fin nn) (Fin nn) ℝ)
    (v : Fin nn → ℝ) (t toler : ℝ) (m : ℕ) (fuel wf : ℕ) : Option (Fin nn → ℝ) :=
  art_loop A toler m wf fuel t v

/-- Non-termination of `art_expm` at given arguments: it returns no result
however much fuel either loop is given. -/
noncomputable def art_expm_diverges {nn : ℕ} (A : Matrix (Fin nn) (Fin nn) ℝ)
    (v : Fin nn → ℝ) (t toler : ℝ) (m : ℕ) : Prop :=
  ∀ fuel wf, art_expm A v t toler m fuel wf = none

/-! ### Helper lemmas -/

lemma getD_ofFn {α : Type} {m : ℕ} (f : Fin m → α) (k : ℕ) (h : k < m) (d₀ : α) :
    (List.ofFn f).getD k d₀ = f ⟨k, h⟩ := by
  simp [List.getD_eq_getElem?_getD, List.getElem?_ofFn, h]

/-! ### Claims about the Chebyshev engine -/

/-- C3: for every n x d signal `X`, operator `L`, scale `phi > 0` and order
`K >= 1`, `compute_chebychev_pol` returns `K+1` entries; entry 0 is the
unmodified `X`, entry 1 is `(1/phi) L X - X`, and entry `k` for `k = 2..K`
is `(2/phi) L T[k-1] - 2 T[k-1] - T[k-2]`. -/
theorem compute_chebychev_pol_spec {n d : ℕ} (X : Matrix (Fin n) (Fin d) ℝ)
    (L : Matrix (Fin n) (Fin n) ℝ) (phi : ℝ) (K : ℕ) (hphi : 0 < phi) (hK : 1 ≤ K) :
    (compute_chebychev_pol X L phi K).length = K + 1 ∧
    (compute_chebychev_pol X L phi K).getD 0 0 = X ∧
    (compute_chebychev_pol X L phi K).getD 1 0 = (1 / phi) • (L * X) - X ∧
    ∀ k, 2 ≤ k → k ≤ K →
      (compute_chebychev_pol X L phi K).getD k 0 =
        (2 / phi) • (L * (compute_chebychev_pol X L phi K).getD (k - 1) 0) -
          (2 : ℝ) • (compute_chebychev_pol X L phi K).getD (k - 1) 0 -
          (compute_chebychev_pol X L phi K).getD (k - 2) 0 := by
  refine ⟨by simp [compute_chebychev_pol], ?_, ?_, ?_⟩
  · rw [compute_chebychev_pol, getD_ofFn _ 0 (by omega)]
    rfl
  · rw [compute_chebychev_pol, getD_ofFn _ 1 (by omega)]
    rfl
  · intro k h2 hK'
    obtain ⟨j, rfl⟩ : ∃ j, k = j + 2 := ⟨k - 2, by omega⟩
    rw [compute_chebychev_pol, getD_ofFn _ (j + 2) (by omega),
      getD_ofFn _ (j + 2 - 1) (by omega), getD_ofFn _ (j + 2 - 2) (by omega)]
    show chebT L X phi (j + 2) = _
    rw [chebT]
    norm_num

/-- Witness for C3 at a concrete input. -/
theorem compute_chebychev_pol_spec_witness :
    (compute_chebychev_pol (0 : Matrix (Fin 1) (Fin 1) ℝ) 0 1 2).length = 2 + 1 :=
  (compute_chebychev_pol_spec 0 0 1 2 (by norm_num) (by norm_num)).1

/-- C2: the one-shot scalar-`tau` computation with explicit order `K` returns
`Y = 1/2 * c0 * T0 + sum_{k=1}^{K} ck * Tk`, where `ck = 2 * ive(k, -tau*phi)`
(the exponentially scaled modified Bessel function of the first kind of order
`k`), `phi` is half the dominant eigenvalue of `L`, and `Tk` are the Chebyshev
recurrence terms. -/
theorem expm_multiply_eq_series {n d : ℕ} (L : Matrix (Fin n) (Fin n) ℝ)
    (X : Matrix (Fin n) (Fin d) ℝ) (tau : ℝ) (K : ℕ) :
    expm_multiply L X tau K =
      (1 / 2 * (2 * ive 0 (-tau * (eigsh_lm L / 2)))) • chebT L X (eigsh_lm L / 2) 0 +
        ∑ k in Finset.Icc 1 K,
          (2 * ive k (-tau * (eigsh_lm L / 2))) • chebT L X (eigsh_lm L / 2) k := by
  rw [expm_multiply]
  have h0 : (0 : ℕ) < K + 1 := by omega
  rw [show (0.5 : ℝ) = 1 / 2 by norm_num]
  congr 1
  · rw [compute_chebychev_coeff_all, compute_chebychev_pol,
      getD_ofFn _ 0 h0, getD_ofFn _ 0 h0]
  · refine Finset.sum_congr rfl fun k hk => ?_
    have hk' : k < K + 1 := by
      have := (Finset.mem_Icc.mp hk).2
      omega
    rw [compute_chebychev_coeff_all, compute_chebychev_pol,
      getD_ofFn _ k hk', getD_ofFn _ k hk']

/-- C5: the two-phase protocol equals the one-shot computation: with an
explicit order, `get_diffusion_fun(L, X, K)` returns (successfully) exactly
the function `tau ↦ expm_multiply(L, X, tau, K)`. -/
theorem get_diffusion_fun_eq_expm_multiply {n d : ℕ} (L : Matrix (Fin n) (Fin n) ℝ)
    (X : Matrix (Fin n) (Fin d) ℝ) (K : ℕ) :
    get_diffusion_fun L X (some K) = Except.ok fun tau => expm_multiply L X tau K := rfl

/-- C10: calling `get_diffusion_fun` with the order omitted always fails with
the unbound-name error: the fallback `K = K_base` reads a name that is never
defined anywhere in the program. -/
theorem get_diffusion_fun_none_unbound {n d : ℕ} (L : Matrix (Fin n) (Fin n) ℝ)
    (X : Matrix (Fin n) (Fin d) ℝ) :
    get_diffusion_fun L X none = Except.error DiffusionErr.unboundKBase := rfl

/-! ### Values at tau = 0 -/

lemma Ibessel_zero_zero : Ibessel 0 0 = 1 := by
  rw [Ibessel]
  rw [tsum_eq_single 0]
  · norm_num
  · intro b hb
    have h2 : ((0 : ℝ) / 2) ^ (2 * b + 0) = 0 := by
      rw [zero_div]
      exact zero_pow (by omega)
    rw [h2, zero_div]

lemma Ibessel_zero_of_pos (k : ℕ) (hk : k ≠ 0) : Ibessel k 0 = 0 := by
  rw [Ibessel]
  have h : (fun m : ℕ => ((0 : ℝ) / 2) ^ (2 * m + k) /
      ((Nat.factorial m : ℝ) * (Nat.factorial (m + k) : ℝ))) = fun _ => 0 := by
    funext m
    have : 2 * m + k ≠ 0 := by omega
    simp [zero_pow this]
  rw [h, tsum_zero]

lemma ive_zero_zero : ive 0 0 = 1 := by
  rw [ive, Ibessel_zero_zero]
  norm_num

lemma ive_zero_of_pos (k : ℕ) (hk : k ≠ 0) : ive k 0 = 0 := by
  rw [ive, Ibessel_zero_of_pos k hk]
  norm_num

lemma expm_multiply_tau_zero {n d : ℕ} (L : Matrix (Fin n) (Fin n) ℝ)
    (X : Matrix (Fin n) (Fin d) ℝ) (K : ℕ) : expm_multiply L X 0 K = X := by
  rw [expm_multiply]
  have h0 : (0 : ℕ) < K + 1 := by omega
  have hc : (-(0 : ℝ) * (eigsh_lm L / 2)) = 0 := by ring
  rw [compute_chebychev_coeff_all, compute_chebychev_pol, getD_ofFn _ 0 h0, getD_ofFn _ 0 h0]
  have hsum : ∑ k in Finset.Icc 1 K,
      ((List.ofFn fun k : Fin (K + 1) => 2 * ive k (-(0 : ℝ) * (eigsh_lm L / 2))).getD k 0) •
        ((List.ofFn fun j : Fin (K + 1) => chebT L X (eigsh_lm L / 2) j).getD k 0) = 0 := by
    refine Finset.sum_eq_zero fun k hk => ?_
    have hk1 := (Finset.mem_Icc.mp hk).1
    have hk2 : k < K + 1 := by
      have := (Finset.mem_Icc.mp hk).2
      omega
    rw [getD_ofFn _ k hk2, hc, ive_zero_of_pos k (by omega)]
    norm_num
  rw [hsum, hc, ive_zero_zero]
  show (0.5 * (2 * 1)) • chebT L X (eigsh_lm L / 2) 0 + 0 = X
  rw [chebT]
  norm_num

lemma mexp_zero {k : ℕ} : mexp (0 : Matrix (Fin k) (Fin k) ℝ) = 1 := by
  rw [mexp]
  rw [tsum_eq_single 0]
  · simp
  · intro b hb
    obtain ⟨b', rfl⟩ : ∃ b', b = b' + 1 := ⟨b - 1, by omega⟩
    rw [zero_pow (Nat.succ_ne_zero b'), smul_zero]

lemma vnorm_mul_div_cancel {nn : ℕ} (v : Fin nn → ℝ) (r : Fin nn) :
    vnorm v * (v r / vnorm v) = v r := by
  by_cases h : vnorm v = 0
  · have hs : ∑ i, (v i) ^ 2 = 0 := by
      have h1 := Real.sqrt_eq_zero'.mp h
      have h2 : (0 : ℝ) ≤ ∑ i, (v i) ^ 2 :=
        Finset.sum_nonneg fun i _ => sq_nonneg (v i)
      linarith
    have hv : v r = 0 := by
      have := (Finset.sum_eq_zero_iff_of_nonneg
        (fun i _ => sq_nonneg (v i))).mp hs r (Finset.mem_univ r)
      exact pow_eq_zero_iff two_ne_zero |>.mp this
    rw [hv]
    simp
  · rw [mul_comm, div_mul_cancel₀ _ h]

lemma mgs_zero {nn : ℕ} (A : Matrix (Fin nn) (Fin nn) ℝ) (V : ℕ → Fin nn → ℝ)
    (H : ℕ → ℕ → ℝ) : mgs A V H 0 = (A.mulVec (V 0), H) := by
  simp [mgs]

lemma mgs_one {nn : ℕ} (A : Matrix (Fin nn) (Fin nn) ℝ) (V : ℕ → Fin nn → ℝ)
    (H : ℕ → ℕ → ℝ) :
    mgs A V H 1 =
      (A.mulVec (V 1) - (Matrix.dotProduct (A.mulVec (V 1)) (V 0)) • V 0,
        upd2 H 0 1 (Matrix.dotProduct (A.mulVec (V 1)) (V 0))) := by
  simp [mgs, List.range_succ]

lemma art_resnorm_tzero_zero (H : ℕ → ℕ → ℝ) :
    art_resnorm 0 H 0 = (|H 1 0|, e1vec 1) := by
  rw [art_resnorm]
  norm_num [mexp_zero, Matrix.one_mulVec, e1vec, Finset.sup'_const, abs_neg]

lemma art_resnorm_tzero_pos (H : ℕ → ℕ → ℝ) (j : ℕ) (hj : j ≠ 0) :
    art_resnorm 0 H j = (0, e1vec (j + 1)) := by
  rw [art_resnorm]
  norm_num [mexp_zero, Matrix.one_mulVec, e1vec, Finset.sup'_const, hj]

lemma combo_smul_e1 {nn : ℕ} (V : ℕ → Fin nn → ℝ) (j : ℕ) (beta : ℝ) :
    combo V (j + 1) (beta • e1vec (j + 1)) = fun r => beta * V 0 r := by
  funext r
  rw [combo]
  rw [Finset.sum_eq_single (⟨0, Nat.succ_pos j⟩ : Fin (j + 1))]
  · simp [e1vec]
  · intro b _ hb
    have hb' : (b : ℕ) ≠ 0 := fun h => hb (Fin.ext h)
    simp [e1vec, hb']
  · intro h
    exact absurd (Finset.mem_univ _) h

lemma art_inner_tzero {nn : ℕ} (A : Matrix (Fin nn) (Fin nn) ℝ) (toler : ℝ)
    (m' : ℕ) (beta : ℝ) (v : Fin nn → ℝ) (wf : ℕ) (V : ℕ → Fin nn → ℝ)
    (H : ℕ → ℕ → ℝ) (ht : 0 < toler) :
    art_inner A 0 toler (m' + 2) beta v wf (m' + 2) 0 V H =
      ArtOut.done (fun r => beta * V 0 r) := by
  rw [show m' + 2 = (m' + 1) + 1 from rfl, art_inner]
  simp only [mgs_zero]
  have h10 : upd2 H (0 + 1) 0 (vnorm (A.mulVec (V 0))) (0 + 1) 0 =
      vnorm (A.mulVec (V 0)) := by
    simp [upd2]
  rw [art_resnorm_tzero_zero]
  simp only [h10]
  rw [abs_of_nonneg (show (0 : ℝ) ≤ vnorm (A.mulVec (V 0)) from Real.sqrt_nonneg _)]
  by_cases hc : vnorm (A.mulVec (V 0)) ≤ toler
  · rw [if_pos hc, combo_smul_e1]
  · rw [if_neg hc, if_neg (by omega), art_inner]
    simp only [Nat.zero_add]
    simp only [mgs_one]
    rw [art_resnorm_tzero_pos _ 1 one_ne_zero]
    rw [if_pos ht.le, combo_smul_e1]
    have hV0 : Function.update V 1
        (fun i => A.mulVec (V 0) i / vnorm (A.mulVec (V 0))) 0 = V 0 := by
      rw [Function.update_noteq (by norm_num)]
    rw [hV0]

lemma art_expm_tau_zero {nn : ℕ} (A : Matrix (Fin nn) (Fin nn) ℝ)
    (v : Fin nn → ℝ) (toler : ℝ) (m : ℕ) (ht : 0 < toler) (hm : 2 ≤ m) (wf : ℕ) :
    art_expm A v 0 toler m 1 wf = some v := by
  obtain ⟨m', rfl⟩ : ∃ m', m = m' + 2 := ⟨m - 2, by omega⟩
  rw [art_expm, show (1 : ℕ) = 0 + 1 from rfl, art_loop]
  rw [art_inner_tzero A toler m' (vnorm v) v wf _ _ ht]
  have hup : Function.update (fun _ => fun _ => (0 : ℝ)) 0 (fun i => v i / vnorm v) 0 =
      fun i => v i / vnorm v := Function.update_same 0 _ _
  show some _ = some v
  congr 1
  funext r
  rw [hup]
  exact vnorm_mul_div_cancel v r

/-- Concrete operator used to exhibit misbehaviour of `art_expm`. -/
def artA : Matrix (Fin 2) (Fin 2) ℝ := !![3, 0; 4, 0]

/-- Concrete starting vector used to exhibit misbehaviour of `art_expm`. -/
def artv : Fin 2 → ℝ := ![1, 0]

lemma vnorm_artv : vnorm artv = 1 := by
  rw [vnorm, Fin.sum_univ_two]
  norm_num [artv]

lemma vnorm_34 : vnorm (![3, 4] : Fin 2 → ℝ) = 5 := by
  rw [vnorm, Fin.sum_univ_two]
  norm_num
  rw [show (25 : ℝ) = 5 ^ 2 by norm_num, Real.sqrt_sq (by norm_num : (0 : ℝ) ≤ 5)]

lemma artA_mulVec : artA.mulVec (fun i => artv i / vnorm artv) = ![3, 4] := by
  funext i
  rw [vnorm_artv]
  fin_cases i <;>
    simp [artA, artv, Matrix.mulVec, Matrix.dotProduct, Fin.sum_univ_two]

lemma e1vec_head {k : ℕ} (h : 0 < k) : e1vec k ⟨0, h⟩ = 1 := rfl

lemma art_inner_cex (wf : ℕ) :
    art_inner artA 0 1 1 (vnorm artv) artv wf 1 0
        (Function.update (fun _ => fun _ => (0 : ℝ)) 0 (fun i => artv i / vnorm artv))
        (fun _ _ => 0) = ArtOut.stuck ∨
      art_inner artA 0 1 1 (vnorm artv) artv wf 1 0
        (Function.update (fun _ => fun _ => (0 : ℝ)) 0 (fun i => artv i / vnorm artv))
        (fun _ _ => 0) = ArtOut.restart 0 artv := by
  rw [show (1 : ℕ) = 0 + 1 from rfl, art_inner]
  simp only [mgs_zero, Function.update_same, artA_mulVec, vnorm_34]
  have h10 : upd2 (fun _ _ => (0 : ℝ)) (0 + 1) 0 5 (0 + 1) 0 = 5 := by simp [upd2]
  rw [art_resnorm_tzero_zero]
  simp only [h10]
  rw [if_neg (by norm_num), if_pos trivial]
  rcases wf with _ | wf
  · left
    rfl
  · rw [restart_find, if_pos (by norm_num : (2 : ℝ) * 1 > 1)]
    have hsm : (-((0 : ℝ) / ((100 : ℕ) : ℝ)) • hsub (upd2 (fun _ _ => (0 : ℝ)) (0 + 1) 0 5) 0) =
        (0 : Matrix (Fin 1) (Fin 1) ℝ) := by
      norm_num
    rw [hsm, mexp_zero]
    simp only [Matrix.one_mulVec, e1vec_head]
    rw [if_neg (by norm_num : ¬ |(-5 : ℝ) * 1| ≤ 1)]
    rcases wf with _ | wf
    · left
      rfl
    · rw [restart_find, if_neg (by norm_num : ¬ ((-5 : ℝ) * 1 > 1))]
      right
      simp only [Option.elim_some]
      rw [show (2 * 100 : ℕ) = 199 + 1 from rfl, restart_scan]
      simp only [Matrix.one_mulVec, e1vec_head]
      rw [if_pos (by norm_num : |(-5 : ℝ) * 1| > 1)]
      simp only [Option.elim_some]
      show ArtOut.restart _ _ = ArtOut.restart 0 artv
      rw [combo_smul_e1]
      congr 1
      · norm_num
      · funext r
        rw [Function.update_same]
        exact vnorm_mul_div_cancel artv r

lemma art_loop_cex : ∀ fuel wf, art_loop artA 1 1 wf fuel 0 artv = none := by
  intro fuel
  induction fuel with
  | zero => intro wf; rfl
  | succ fuel ih =>
    intro wf
    rw [art_loop]
    rcases art_inner_cex wf with h | h
    · rw [h]
    · rw [h]
      exact ih wf

/-! ### Claim C9 -/

/-- C9 (amended): for `tau = 0` the Chebyshev path is exactly the identity:
`expm_multiply(L, X, 0, K) = X` for every `L`, `X` and explicit order
`K >= 1`; and the Krylov path `art_expm(A, v, 0, toler, m)` returns `v`
exactly for every `A`, `v`, `toler > 0` and subspace dimension `m >= 2`
(one pass of the outer loop suffices, for any restart-search fuel).
For `m = 1` the claim fails: the restart logic makes no progress at `t = 0`
and the code loops forever (see the counterexample). -/
theorem tau_zero_identity {n d nn : ℕ} (L : Matrix (Fin n) (Fin n) ℝ)
    (X : Matrix (Fin n) (Fin d) ℝ) (K : ℕ) (A : Matrix (Fin nn) (Fin nn) ℝ)
    (v : Fin nn → ℝ) (toler : ℝ) (m : ℕ) (hK : 1 ≤ K) (ht : 0 < toler)
    (hm : 2 ≤ m) (wf : ℕ) :
    expm_multiply L X 0 K = X ∧ art_expm A v 0 toler m 1 wf = some v :=
  ⟨expm_multiply_tau_zero L X K, art_expm_tau_zero A v toler m ht hm wf⟩

/-- Witness for C9 at a concrete input. -/
theorem tau_zero_identity_witness :
    expm_multiply (0 : Matrix (Fin 1) (Fin 1) ℝ) (0 : Matrix (Fin 1) (Fin 1) ℝ) 0 1 = 0 ∧
      art_expm artA artv 0 1 2 1 0 = some artv :=
  tau_zero_identity 0 0 1 artA artv 1 2 (by norm_num) (by norm_num) (by norm_num) 0

/-- Counterexample to C9 as stated: with `m = 1`, `toler = 1`,
`A = [[3,0],[4,0]]` and `v = (1,0)`, the call `art_expm(A, v, 0, toler, m)`
does not return `v` — it does not return at all: at `t = 0` the restart
accepts a zero-length time interval and re-enters the loop in the same
state forever. -/
theorem tau_zero_identity_cex : art_expm_diverges artA artv 0 1 1 := by
  intro fuel wf
  exact art_loop_cex fuel wf

/-! ### Claim C7 -/

/-- C7: the Krylov basis columns are NOT mutually orthonormal.  The source
orthogonalizes `w = A @ V[:,j]` only against `V[:,i]` for `i in range(j)`,
skipping `V[:,j]` itself (the MATLAB original runs `i = 1:j` inclusive).
Evaluating the code's own first building step (`j = 0`) at `A = [[3,0],[4,0]]`,
`v = (1,0)`: the next basis column `w / H[1,0]` as `art_inner` computes it has
inner product `3/5 ≠ 0` with column 0, so the invariant fails before the
second column is even used. -/
theorem arnoldi_step_not_orthogonal :
    Matrix.dotProduct
        (fun i =>
          (mgs artA (Function.update (fun _ => fun _ => (0 : ℝ)) 0
              (fun i => artv i / vnorm artv)) (fun _ _ => 0) 0).1 i /
            vnorm (mgs artA (Function.update (fun _ => fun _ => (0 : ℝ)) 0
              (fun i => artv i / vnorm artv)) (fun _ _ => 0) 0).1)
        (Function.update (fun _ => fun _ => (0 : ℝ)) 0 (fun i => artv i / vnorm artv) 0)
      = 3 / 5 ∧ (3 / 5 : ℝ) ≠ 0 := by
  constructor
  · simp only [mgs_zero, Function.update_same, artA_mulVec, vnorm_34]
    rw [Matrix.dotProduct, Fin.sum_univ_two, vnorm_artv]
    norm_num [artv]
  · norm_num

/-! ### Claim C8 -/

/-- C8: requesting a signal-specific bound on a signal whose entries sum to
zero fails (the `assert a1 != 0` fires, modelled by `none`); on any signal
with nonzero sum both signal-specific bounds return a (finite) non-negative
value. -/
theorem specific_bounds_degenerate {n d : ℕ} (phi : ℝ) (x : Matrix (Fin n) (Fin d) ℝ)
    (tau : ℝ) (K : ℕ) :
    (entsum x = 0 →
      get_bound_eta_specific phi x tau K = none ∧
        get_bound_bergamaschi_specific phi x tau K = none) ∧
    (entsum x ≠ 0 →
      ∃ r s, get_bound_eta_specific phi x tau K = some r ∧ 0 ≤ r ∧
        get_bound_bergamaschi_specific phi x tau K = some s ∧ 0 ≤ s) := by
  constructor
  · intro h0
    constructor
    · rw [get_bound_eta_specific, if_neg (by simpa using h0)]
    · rw [get_bound_bergamaschi_specific, if_neg (by simpa using h0)]
  · intro hne
    refine ⟨g K (tau * phi / 2) ^ 2 * (n : ℝ) * frob x ^ 2 / (entsum x) ^ 2,
      4 * E K (tau * phi / 2) ^ 2 * (n : ℝ) * frob x ^ 2 / (entsum x) ^ 2, ?_, ?_, ?_, ?_⟩
    · simp only [get_bound_eta_specific]
      rw [if_pos hne]
    · have h1 : (0 : ℝ) ≤ g K (tau * phi / 2) ^ 2 := sq_nonneg _
      have h2 : (0 : ℝ) ≤ frob x ^ 2 := sq_nonneg _
      positivity
    · simp only [get_bound_bergamaschi_specific]
      rw [if_pos hne]
    · have h1 : (0 : ℝ) ≤ E K (tau * phi / 2) ^ 2 := sq_nonneg _
      have h2 : (0 : ℝ) ≤ frob x ^ 2 := sq_nonneg _
      positivity

/-- A concrete signal whose entries sum to zero. -/
def xzero : Matrix (Fin 2) (Fin 1) ℝ := !![1; -1]

/-- A concrete signal whose entries sum to one. -/
def xone : Matrix (Fin 2) (Fin 1) ℝ := !![1; 0]

/-- Witness for C8: both behaviours at concrete signals. -/
theorem specific_bounds_degenerate_witness :
    (get_bound_eta_specific 1 xzero 1 1 = none ∧
      get_bound_bergamaschi_specific 1 xzero 1 1 = none) ∧
    ∃ r s, get_bound_eta_specific 1 xone 1 1 = some r ∧ 0 ≤ r ∧
      get_bound_bergamaschi_specific 1 xone 1 1 = some s ∧ 0 ≤ s := by
  constructor
  · exact (specific_bounds_degenerate 1 xzero 1 1).1
      (by norm_num [entsum, xzero, Fin.sum_univ_two])
  · exact (specific_bounds_degenerate 1 xone 1 1).2
      (by norm_num [entsum, xone, Fin.sum_univ_two])

/-! ### Claims C1 and C6: the order-selection search -/

lemma rb_double_none {α : Type} (f : ℝ → α → ℝ → ℕ → ℝ) (phi : ℝ) (x : α)
    (tau err : ℝ) (hf : ∀ K, err < f phi x tau K) :
    ∀ fuel kmin kmax, rb_double f phi x tau err fuel kmin kmax = none := by
  intro fuel
  induction fuel with
  | zero => intro kmin kmax; rfl
  | succ fuel ih =>
    intro kmin kmax
    rw [rb_double, if_neg (not_le.mpr (hf kmax))]
    exact ih kmax (2 * kmax)

lemma rb_double_spec {α : Type} (f : ℝ → α → ℝ → ℕ → ℝ) (phi : ℝ) (x : α)
    (tau err : ℝ) :
    ∀ fuel kmin kmax a b, 1 ≤ kmin → kmax = 2 * kmin → err < f phi x tau kmin →
      rb_double f phi x tau err fuel kmin kmax = some (a, b) →
      err < f phi x tau a ∧ f phi x tau b ≤ err ∧ a < b := by
  intro fuel
  induction fuel with
  | zero => intro kmin kmax a b _ _ _ h; exact absurd h (by rw [rb_double]; simp)
  | succ fuel ih =>
    intro kmin kmax a b h1 h2 h3 h
    rw [rb_double] at h
    by_cases hc : f phi x tau kmax ≤ err
    · rw [if_pos hc] at h
      obtain ⟨rfl, rfl⟩ : kmin = a ∧ kmax = b := by
        have := Option.some.inj h
        exact ⟨congrArg Prod.fst this, congrArg Prod.snd this⟩
      exact ⟨h3, hc, by omega⟩
    · rw [if_neg hc] at h
      exact ih kmax (2 * kmax) a b (by omega) rfl (not_le.mp hc) h

lemma rb_bisect_spec {α : Type} (f : ℝ → α → ℝ → ℕ → ℝ) (phi : ℝ) (x : α)
    (tau err : ℝ) :
    ∀ gap a b, b - a ≤ gap → err < f phi x tau a → f phi x tau b ≤ err → a < b →
      f phi x tau (rb_bisect f phi x tau err a b) ≤ err ∧
        err < f phi x tau (rb_bisect f phi x tau err a b - 1) := by
  intro gap
  induction gap with
  | zero => intro a b hg _ _ hab; omega
  | succ gap ih =>
    intro a b hg ha hb hab
    rw [rb_bisect]
    by_cases hw : b > 1 + a
    · rw [dif_pos hw]
      by_cases hc : f phi x tau ((b + a) / 2) ≤ err
      · rw [if_pos hc]
        exact ih a ((b + a) / 2) (by omega) ha hc (by omega)
      · rw [if_neg hc]
        exact ih ((b + a) / 2) b (by omega) (not_le.mp hc) hb (by omega)
    · rw [dif_neg hw]
      have hb1 : b = a + 1 := by omega
      refine ⟨hb, ?_⟩
      rw [hb1]
      simpa using ha

/-- C1 (amended): whenever `reverse_bound` returns a value `K`, that `K`
satisfies `f(K) <= err`, and either `K` is the heuristic starting point
`K_min = max(1, int(tau*phi/2))` or `f(K-1) > err`.  Minimality holds only
relative to this starting point: when `f(K_min) <= err` the code returns
`K_min` without probing any smaller order, so the returned `K` need not be
the minimal `K >= 1` meeting the bound (see the counterexample). -/
theorem reverse_bound_spec {α : Type} (f : ℝ → α → ℝ → ℕ → ℝ) (phi : ℝ) (x : α)
    (tau err : ℝ) (fuel K : ℕ)
    (h : reverse_bound f phi x tau err fuel = some K) :
    1 ≤ K ∧ f phi x tau K ≤ err ∧
      (K = max 1 (Int.toNat ⌊tau * phi / 2⌋) ∨ err < f phi x tau (K - 1)) := by
  simp only [reverse_bound] at h
  by_cases hc : f phi x tau (max 1 (Int.toNat ⌊tau * phi / 2⌋)) ≤ err
  · rw [if_pos hc] at h
    obtain rfl : max 1 (Int.toNat ⌊tau * phi / 2⌋) = K := Option.some.inj h
    exact ⟨le_max_left 1 _, hc, Or.inl rfl⟩
  · rw [if_neg hc] at h
    obtain ⟨⟨a, b⟩, hd, hK⟩ := Option.map_eq_some'.mp h
    have hinv := rb_double_spec f phi x tau err fuel _ _ a b
      (le_max_left 1 _) rfl (not_le.mp hc) hd
    have hbis := rb_bisect_spec f phi x tau err (b - a) a b le_rfl
      hinv.1 hinv.2.1 hinv.2.2
    rw [hK] at hbis
    have hK1 : 1 ≤ K := by
      by_contra hlt
      have h0 : K = 0 := by omega
      rw [h0] at hbis
      exact absurd hbis.1 (not_le.mpr hbis.2)
    exact ⟨hK1, hbis.1, Or.inr hbis.2⟩

/-- The constant-zero error model: every order already meets any
non-negative error target. -/
def fzero : ℝ → Unit → ℝ → ℕ → ℝ := fun _ _ _ _ => 0

/-- The constant-one error model: no order ever meets the target `0`. -/
def fone : ℝ → Unit → ℝ → ℕ → ℝ := fun _ _ _ _ => 1

lemma floor_five_halves : ⌊(1 : ℝ) * 5 / 2⌋ = 2 := by
  rw [Int.floor_eq_iff]
  norm_num

lemma reverse_bound_fzero : reverse_bound fzero 5 () 1 0 1 = some 2 := by
  simp only [reverse_bound, floor_five_halves]
  norm_num [fzero]
  decide

/-- Counterexample to C1 as stated: the constant-zero bound model is
non-increasing in `K` and already satisfies `f(1) <= err`, yet with
`phi = 5`, `tau = 1`, `err = 0` the search returns `K = 2` (the heuristic
start `max(1, int(tau*phi/2))`), not the minimal `K = 1`; in particular
neither `K = 1` nor `f(K-1) > err` holds at the returned `K`. -/
theorem reverse_bound_not_minimal :
    reverse_bound fzero 5 () 1 0 1 = some 2 ∧ fzero 5 () 1 1 ≤ 0 ∧ (2 : ℕ) ≠ 1 :=
  ⟨reverse_bound_fzero, le_refl 0, by norm_num⟩

/-- Witness for C1 (amended) at a concrete input. -/
theorem reverse_bound_spec_witness :
    1 ≤ 2 ∧ fzero 5 () 1 2 ≤ 0 ∧
      ((2 : ℕ) = max 1 (Int.toNat ⌊(1 : ℝ) * 5 / 2⌋) ∨ 0 < fzero 5 () 1 (2 - 1)) :=
  reverse_bound_spec fzero 5 () 1 0 1 2
    (by simp only [reverse_bound, floor_five_halves]; norm_num [fzero]; decide)

/-- C6 (amended): when the bound model never drops to the target error,
`reverse_bound` does not terminate: the doubling loop of step 1 runs forever
(modelled as `none` for every fuel).  The source configures no maximum `K`
and raises no error: the `OrderSearchExhaustedError` behaviour claimed by the
specification does not exist in the code. -/
theorem reverse_bound_exhaust {α : Type} (f : ℝ → α → ℝ → ℕ → ℝ) (phi : ℝ)
    (x : α) (tau err : ℝ) (hf : ∀ K, err < f phi x tau K) (fuel : ℕ) :
    reverse_bound f phi x tau err fuel = none := by
  simp only [reverse_bound]
  rw [if_neg (not_le.mpr (hf _)), rb_double_none f phi x tau err hf fuel _ _]
  rfl

/-- Counterexample to C6 as stated: with the constant-one bound model and
target error `0`, the search neither terminates nor raises any error —
it returns nothing for every amount of fuel. -/
theorem reverse_bound_no_exhaust_error : reverse_bound_diverges fone 1 () 1 0 := by
  intro fuel
  simp only [reverse_bound]
  rw [if_neg (by norm_num [fone]),
    rb_double_none fone 1 () 1 0 (fun K => by norm_num [fone]) fuel _ _]
  rfl

/-- Witness for C6 (amended) at a concrete input. -/
theorem reverse_bound_exhaust_witness : reverse_bound fone 2 () 3 0 7 = none :=
  reverse_bound_exhaust fone 2 () 3 0 (fun K => by norm_num [fone]) 7

/-! ### Claim C4: sign and monotonicity of the bound models -/

lemma sqrt5_gt_two : (2 : ℝ) < Real.sqrt 5 := by
  nlinarith [Real.sq_sqrt (by norm_num : (0 : ℝ) ≤ 5), Real.sqrt_nonneg 5]

lemma bconst_pos : 0 < bconst := by
  rw [bconst]
  have := Real.sqrt_nonneg 5
  positivity

lemma bconst_le_one : bconst ≤ 1 := by
  rw [bconst]
  rw [div_le_one (by nlinarith [sqrt5_gt_two])]
  nlinarith [sqrt5_gt_two]

lemma dconst_pos : 0 < dconst := by
  rw [dconst]
  have h : (0 : ℝ) < 2 + Real.sqrt 5 := by nlinarith [sqrt5_gt_two]
  exact div_pos (Real.exp_pos _) h

lemma dconst_lt_one : dconst < 1 := by
  rw [dconst]
  rw [div_lt_one (by nlinarith [sqrt5_gt_two])]
  have h1 : Real.exp bconst ≤ Real.exp 1 := Real.exp_le_exp.mpr bconst_le_one
  have h2 := Real.exp_one_lt_d9
  nlinarith [sqrt5_gt_two]

lemma E_nonneg (K : ℕ) (C : ℝ) : 0 ≤ E K C := by
  have hd := dconst_pos
  have hd1 := dconst_lt_one
  rw [E]
  split_ifs with h
  · apply add_nonneg
    · apply mul_nonneg (Real.exp_pos _).le
      have := Real.sqrt_nonneg (C * Real.pi / bconst)
      linarith
    · exact div_nonneg (Real.rpow_nonneg hd.le _) (by linarith)
  · exact div_nonneg (pow_nonneg hd.le K) (by linarith)

lemma E_step (K : ℕ) (C : ℝ) (hC : 0 < C) : E (K + 1) C ≤ E K C := by
  have hd := dconst_pos
  have hd1 := dconst_lt_one
  rw [E, E]
  by_cases h1 : ((K + 1 : ℕ) : ℝ) ≤ 4 * C
  · have hk : (K : ℝ) ≤ 4 * C := by
      push_cast at h1
      linarith
    rw [if_pos h1, if_pos hk]
    apply add_le_add_right
    apply mul_le_mul_of_nonneg_right
    · apply Real.exp_le_exp.mpr
      apply div_le_div_of_le_of_nonneg _ (by linarith)
      push_cast
      nlinarith [bconst_pos]
    · have := Real.sqrt_nonneg (C * Real.pi / bconst)
      linarith
  · rw [if_neg h1]
    by_cases h2 : (K : ℝ) ≤ 4 * C
    · rw [if_pos h2]
      have hstep : dconst ^ (K + 1) ≤ dconst ^ ((4 : ℝ) * C) := by
        rw [← Real.rpow_natCast dconst (K + 1)]
        apply Real.rpow_le_rpow_of_exponent_ge hd hd1.le
        push_cast at h1 ⊢
        linarith
      have ht1 : 0 ≤ Real.exp (-bconst * ((K : ℝ) + 1) ^ 2 / (4 * C)) *
          (1 + Real.sqrt (C * Real.pi / bconst)) := by
        apply mul_nonneg (Real.exp_pos _).le
        have := Real.sqrt_nonneg (C * Real.pi / bconst)
        linarith
      have := div_le_div_of_le_of_nonneg hstep (by linarith : (0 : ℝ) ≤ 1 - dconst)
      linarith
    · rw [if_neg h2]
      apply div_le_div_of_le_of_nonneg _ (by linarith)
      exact pow_le_pow_of_le_one hd.le hd1.le (Nat.le_succ K)

lemma g_pos (K : ℕ) (C : ℝ) (hC : 0 < C) (hK : C < (K : ℝ) + 1) : 0 < g K C := by
  rw [g]
  have hf : (0 : ℝ) < (Nat.factorial K : ℝ) := by
    exact_mod_cast Nat.factorial_pos K
  apply div_pos
  · positivity
  · apply mul_pos hf
    linarith

lemma g_step (K : ℕ) (C : ℝ) (hC : 0 < C) (hK : C < (K : ℝ) + 1) :
    g (K + 1) C ≤ g K C := by
  have hf : (0 : ℝ) < (Nat.factorial K : ℝ) := by exact_mod_cast Nat.factorial_pos K
  have hfs : ((K + 1).factorial : ℝ) = ((K : ℝ) + 1) * (Nat.factorial K : ℝ) := by
    rw [Nat.factorial_succ]
    push_cast
    ring
  rw [g, g]
  rw [div_le_div_iff (by rw [hfs]; push_cast; nlinarith) (by push_cast; nlinarith)]
  have hexp : Real.exp (C ^ 2 / (((K + 1 : ℕ) : ℝ) + 2) - 2 * C) ≤
      Real.exp (C ^ 2 / ((K : ℝ) + 2) - 2 * C) := by
    apply Real.exp_le_exp.mpr
    apply sub_le_sub_right
    apply div_le_div_of_nonneg_left (sq_nonneg C) (by positivity)
    push_cast
    linarith
  have hcc : C * ((K : ℝ) + 1 - C) ≤ ((K : ℝ) + 1) * ((K : ℝ) + 2 - C) := by nlinarith
  have hmain : Real.exp (C ^ 2 / (((K + 1 : ℕ) : ℝ) + 2) - 2 * C) * (C * ((K : ℝ) + 1 - C)) ≤
      Real.exp (C ^ 2 / ((K : ℝ) + 2) - 2 * C) * (((K : ℝ) + 1) * ((K : ℝ) + 2 - C)) := by
    apply mul_le_mul hexp hcc (by nlinarith) (Real.exp_pos _).le
  calc 2 * Real.exp (C ^ 2 / (((K + 1 : ℕ) : ℝ) + 2) - 2 * C) * C ^ (K + 1 + 1) *
        ((Nat.factorial K : ℝ) * ((K : ℝ) + 1 - C))
      = (2 * C ^ (K + 1) * (Nat.factorial K : ℝ)) *
        (Real.exp (C ^ 2 / (((K + 1 : ℕ) : ℝ) + 2) - 2 * C) * (C * ((K : ℝ) + 1 - C))) := by
        rw [pow_succ]
        ring
    _ ≤ (2 * C ^ (K + 1) * (Nat.factorial K : ℝ)) *
        (Real.exp (C ^ 2 / ((K : ℝ) + 2) - 2 * C) * (((K : ℝ) + 1) * ((K : ℝ) + 2 - C))) := by
        apply mul_le_mul_of_nonneg_left hmain
        positivity
    _ = 2 * Real.exp (C ^ 2 / ((K : ℝ) + 2) - 2 * C) * C ^ (K + 1) *
        (((K + 1).factorial : ℝ) * (((K + 1 : ℕ) : ℝ) + 1 - C)) := by
        rw [hfs]
        push_cast
        ring

lemma g_sq_step (K : ℕ) (C : ℝ) (hC : 0 < C) (hK : C < (K : ℝ) + 1) :
    g (K + 1) C ^ 2 ≤ g K C ^ 2 := by
  have h1 : 0 < g (K + 1) C := g_pos (K + 1) C hC (by push_cast; linarith)
  exact pow_le_pow_left h1.le (g_step K C hC hK) 2

/-- C4 (amended): every model in the bound family is non-negative wherever it
is defined; the Bergamaschi bounds are non-increasing in `K` for every
`phi, tau > 0`; the `g`-based bounds (`eps_generic`, `eta_generic`,
`eta_specific`) are non-increasing only on the domain `K + 1 > tau*phi/2`
(for smaller `K` the factor `K+1-C` in the denominator of `g` changes sign
and the squared bound blows up, see the counterexample). -/
theorem bound_models_nonneg_monotone {n d : ℕ} (phi tau : ℝ)
    (x : Matrix (Fin n) (Fin d) ℝ) (K : ℕ) (hphi : 0 < phi) (htau : 0 < tau) :
    (0 ≤ get_bound_eps_generic phi x tau K ∧
      (∀ r, get_bound_eta_generic phi x tau K = some r → 0 ≤ r) ∧
      (∀ r, get_bound_eta_specific phi x tau K = some r → 0 ≤ r) ∧
      0 ≤ get_bound_bergamaschi_generic phi x tau K ∧
      (∀ r, get_bound_bergamaschi_specific phi x tau K = some r → 0 ≤ r)) ∧
    (tau * phi / 2 < (K : ℝ) + 1 →
      get_bound_eps_generic phi x tau (K + 1) ≤ get_bound_eps_generic phi x tau K ∧
      (∀ r s, get_bound_eta_generic phi x tau K = some r →
        get_bound_eta_generic phi x tau (K + 1) = some s → s ≤ r) ∧
      (∀ r s, get_bound_eta_specific phi x tau K = some r →
        get_bound_eta_specific phi x tau (K + 1) = some s → s ≤ r)) ∧
    get_bound_bergamaschi_generic phi x tau (K + 1) ≤
      get_bound_bergamaschi_generic phi x tau K ∧
    (∀ r s, get_bound_bergamaschi_specific phi x tau K = some r →
      get_bound_bergamaschi_specific phi x tau (K + 1) = some s → s ≤ r) := by
  have hC : 0 < tau * phi / 2 := by positivity
  refine ⟨⟨sq_nonneg _, ?_, ?_, sq_nonneg _, ?_⟩, ?_, ?_, ?_⟩
  · intro r hr
    simp only [get_bound_eta_generic] at hr
    split_ifs at hr with hcond
    · obtain rfl := Option.some.inj hr
      positivity
  · intro r hr
    simp only [get_bound_eta_specific] at hr
    split_ifs at hr with hcond
    · obtain rfl := Option.some.inj hr
      positivity
  · intro r hr
    simp only [get_bound_bergamaschi_specific] at hr
    split_ifs at hr with hcond
    · obtain rfl := Option.some.inj hr
      positivity
  · intro hdom
    have hstep := g_sq_step K (tau * phi / 2) hC hdom
    refine ⟨hstep, ?_, ?_⟩
    · intro r s hr hs
      simp only [get_bound_eta_generic] at hr hs
      split_ifs at hr hs with h1 h2
      · obtain rfl := Option.some.inj hr
        obtain rfl := Option.some.inj hs
        exact mul_le_mul_of_nonneg_right hstep (Real.exp_pos _).le
    · intro r s hr hs
      simp only [get_bound_eta_specific] at hr hs
      split_ifs at hr hs with h1 h2
      · obtain rfl := Option.some.inj hr
        obtain rfl := Option.some.inj hs
        have hn : (0 : ℝ) ≤ (n : ℝ) := Nat.cast_nonneg n
        have hfr : (0 : ℝ) ≤ frob x ^ 2 := sq_nonneg _
        have ha : (0 : ℝ) ≤ (entsum x) ^ 2 := sq_nonneg _
        gcongr
  · have hE := E_step K (tau * phi / 2) hC
    have hE0 := E_nonneg (K + 1) (tau * phi / 2)
    simp only [get_bound_bergamaschi_generic]
    apply pow_le_pow_left (by positivity)
    have := Real.exp_pos (4 * (tau * phi / 2))
    nlinarith
  · intro r s hr hs
    simp only [get_bound_bergamaschi_specific] at hr hs
    split_ifs at hr hs with h1 h2
    · obtain rfl := Option.some.inj hr
      obtain rfl := Option.some.inj hs
      have hE := E_step K (tau * phi / 2) hC
      have hE0 := E_nonneg (K + 1) (tau * phi / 2)
      have hE1 := E_nonneg K (tau * phi / 2)
      have hsq : E (K + 1) (tau * phi / 2) ^ 2 ≤ E K (tau * phi / 2) ^ 2 := by
        nlinarith
      have hn : (0 : ℝ) ≤ (n : ℝ) := Nat.cast_nonneg n
      have hfr : (0 : ℝ) ≤ frob x ^ 2 := sq_nonneg _
      gcongr

/-- Witness for C4 (amended) at a concrete input. -/
theorem bound_models_nonneg_monotone_witness :
    0 ≤ get_bound_eps_generic 1 xone 1 1 :=
  (bound_models_nonneg_monotone 1 1 xone 1 (by norm_num) (by norm_num)).1.1

/-- Counterexample to C4 as stated: `get_bound_eps_generic` is not
non-increasing in `K`.  At `phi = 29/5`, `tau = 1` (so `C = tau*phi/2 = 2.9`)
the bound increases from `K = 1` to `K = 2`, because the factor `K+1-C` in
the denominator of `g` is `-0.9` at `K = 1` but `+0.1` at `K = 2`. -/
theorem eps_generic_not_monotone :
    get_bound_eps_generic ((29 : ℝ) / 5) xone 1 1 <
      get_bound_eps_generic ((29 : ℝ) / 5) xone 1 2 := by
  simp only [get_bound_eps_generic]
  have hC : (1 : ℝ) * (29 / 5) / 2 = 29 / 10 := by norm_num
  rw [hC, g, g]
  norm_num [Nat.factorial]
  have hab : Real.exp (-(899 / 300) : ℝ) ^ 2 =
      Real.exp ((841 : ℝ) / 600) * Real.exp (-(1479 / 400) : ℝ) ^ 2 := by
    rw [sq, sq, ← Real.exp_add, ← Real.exp_add, ← Real.exp_add, Real.exp_eq_exp]
    norm_num
  have hexp : Real.exp ((841 : ℝ) / 600) < 7.4 := by
    have h1 : Real.exp ((841 : ℝ) / 600) ≤ Real.exp 2 := Real.exp_le_exp.mpr (by norm_num)
    have h2 : Real.exp (2 : ℝ) = Real.exp 1 * Real.exp 1 := by
      rw [← Real.exp_add]
      norm_num
    have h3 := Real.exp_one_lt_d9
    have h4 := Real.exp_pos 1
    nlinarith
  have hb2 : (0 : ℝ) < Real.exp (-(1479 / 400) : ℝ) ^ 2 := by positivity
  have hs : Real.exp (-(899 / 300) : ℝ) ^ 2 < 7.4 * Real.exp (-(1479 / 400) : ℝ) ^ 2 := by
    rw [hab]
    exact mul_lt_mul_of_pos_right hexp hb2
  nlinarith [hs, hb2]

end Cheby
